import Mathlib

/-!
Verification of the story-curator evidence core: sentence tagging and
extraction (`src/utils/text_processor.py`), consecutive-run grouping,
flag aggregation (`src/flagging/content_flagger.py`) and per-sentence
overlay rendering (`src/utils/highlighting_utils.py`), shallowly embedded
in Lean.  Text is modelled as `List Char`; the external NLTK sentence
tokenizer is an abstract parameter `tok`; Python dynamic values are the
inductive `PyVal`.
-/

namespace StoryCurator

/-! ## Python dynamic values, for `normalize_tag_numbers` -/

/-- Model of a Python runtime value as far as `normalize_tag_numbers`
can observe it: an int, a string, a list of values, or some other
non-int non-list object (`other` covers `None`, dicts, floats, ...). -/
inductive PyVal : Type where
  | int : ℤ → PyVal
  | str : String → PyVal
  | list : List PyVal → PyVal
  | other : PyVal

/-- Python `isinstance(v, int)` for our value model. -/
def PyVal.isInt : PyVal → Bool
  | .int _ => true
  | _ => false

/-- Python `isinstance(v, list)` for our value model. -/
def PyVal.isList : PyVal → Bool
  | .list _ => true
  | _ => false

/-- Decide whether every element of a Python list is an int, and give
the ints. -/
def PyVal.asInts : List PyVal → Option (List ℤ)
  | [] => some []
  | .int n :: rest => (PyVal.asInts rest).map (n :: ·)
  | _ => none

/-- Decide whether every element of a Python list is a string, and give
the strings. -/
def PyVal.asStrs : List PyVal → Option (List String)
  | [] => some []
  | .str s :: rest => (PyVal.asStrs rest).map (s :: ·)
  | _ => none

/-- Model of Python `sorted(l)`.  A list with at most one element is
returned unchanged (no comparison ever runs); an all-int list is sorted
ascending; an all-string list is sorted lexicographically; any other
list makes some `<` comparison hit incomparable operand types, which
raises `TypeError` — modelled as `Except.error ()`.  Python sorting is
stable; `List.insertionSort` is a stable sorting algorithm, hence
agrees with it extensionally. -/
def pySorted (l : List PyVal) : Except Unit (List PyVal) :=
  if l.length ≤ 1 then .ok l
  else match PyVal.asInts l with
    | some ns => .ok ((ns.insertionSort (· ≤ ·)).map PyVal.int)
    | none => match PyVal.asStrs l with
      | some ss => .ok ((ss.insertionSort (· ≤ ·)).map PyVal.str)
      | none => .error ()

/-- Translation of `TextProcessor.normalize_tag_numbers` over the
dynamic value model: an int becomes a singleton list, a list is passed
to `sorted`, anything else becomes `[]`. -/
def normalize_tag_numbers : PyVal → Except Unit (List PyVal)
  | .int n => .ok [.int n]
  | .list l => pySorted l
  | _ => .ok []

/-! ## Spans on the typed path

`ContentFlagger` feeds `flag["tag_numbers"]` (an int or a list of ints,
per the classifier contract) through `normalize_tag_numbers`.  On that
well-typed domain the function reduces to the following. -/

/-- Raw span reference of one annotation candidate: a single sentence
id, a collection of ids, or anything else (malformed). -/
inductive Span : Type where
  | one : ℤ → Span
  | many : List ℤ → Span
  | invalid : Span
  deriving DecidableEq, Repr

/-- The behaviour of `normalize_tag_numbers` on the typed span domain:
`int` branch, `list` branch (Python `sorted`), default branch. -/
def normalizeSpan : Span → List ℤ
  | .one n => [n]
  | .many l => l.insertionSort (· ≤ ·)
  | .invalid => []

/-! ## Consecutive-run grouping (`group_consecutive_numbers`) -/

/-- Loop body of `TextProcessor.group_consecutive_numbers`: `cur` holds
the current group in reverse, `last` its most recent element
(`current_group[-1]` in the source). -/
def gcnGo (last : ℤ) (cur : List ℤ) : List ℤ → List (List ℤ)
  | [] => [cur.reverse]
  | m :: rest =>
    if m = last + 1 then gcnGo m (m :: cur) rest
    else cur.reverse :: gcnGo m [m] rest

/-- Translation of `TextProcessor.group_consecutive_numbers`: partition
a list into maximal runs of consecutive integers by a single
left-to-right scan. -/
def group_consecutive_numbers : List ℤ → List (List ℤ)
  | [] => []
  | n :: rest => gcnGo n [n] rest

theorem gcnGo_flatten (l : List ℤ) :
    ∀ last cur, (gcnGo last cur l).flatten = cur.reverse ++ l := by
  induction l with
  | nil => intro last cur; simp [gcnGo]
  | cons m rest ih =>
    intro last cur
    by_cases h : m = last + 1
    · simp [gcnGo, h, ih]
    · simp [gcnGo, h, ih]

/-- Concatenating the groups reproduces the input list exactly. -/
theorem group_consecutive_flatten (l : List ℤ) :
    (group_consecutive_numbers l).flatten = l := by
  cases l with
  | nil => rfl
  | cons n rest => simp [group_consecutive_numbers, gcnGo_flatten]

theorem gcnGo_ne_nil (l : List ℤ) :
    ∀ last cur, cur ≠ [] → ∀ g ∈ gcnGo last cur l, g ≠ [] := by
  induction l with
  | nil =>
    intro last cur hcur g hg
    simp [gcnGo] at hg
    simpa [hg] using hcur
  | cons m rest ih =>
    intro last cur hcur g hg
    by_cases h : m = last + 1
    · exact ih m (m :: cur) (by simp) g (by simpa [gcnGo, h] using hg)
    · simp [gcnGo, h] at hg
      rcases hg with hg | hg
      · simpa [hg] using hcur
      · exact ih m [m] (by simp) g hg

/-- Every group returned by the grouping scan is non-empty. -/
theorem group_consecutive_ne_nil (l : List ℤ) :
    ∀ g ∈ group_consecutive_numbers l, g ≠ [] := by
  cases l with
  | nil => intro g hg; simp [group_consecutive_numbers] at hg
  | cons n rest =>
    exact gcnGo_ne_nil rest n [n] (by simp)

/-! ## Decimal rendering of tag ids

Python builds the marker text with an f-string (`f"<tag{i}>"`), i.e.
with `str(i)`.  `digitsGo` is a fuel-indexed (hence structurally
recursive and kernel-computable) big-endian decimal printer; `natDigits`
and `intChars` model `str` on naturals and integers. -/

/-- The decimal digit characters. -/
def digitCh : ℕ → Char
  | 0 => '0' | 1 => '1' | 2 => '2' | 3 => '3' | 4 => '4'
  | 5 => '5' | 6 => '6' | 7 => '7' | 8 => '8' | _ => '9'

/-- Big-endian decimal digits of `n`, with enough fuel. -/
def digitsGo : ℕ → ℕ → List Char
  | _, 0 => []
  | 0, _ + 1 => []
  | fuel + 1, n + 1 => digitsGo fuel ((n + 1) / 10) ++ [digitCh ((n + 1) % 10)]

/-- Model of Python `str(n)` for a natural number. -/
def natDigits (n : ℕ) : List Char :=
  if n = 0 then ['0'] else digitsGo n n

/-- Model of Python `str(z)` for an integer. -/
def intChars (z : ℤ) : List Char :=
  if z < 0 then '-' :: natDigits z.natAbs else natDigits z.toNat

theorem digitsGo_eq_digits :
    ∀ fuel n, n ≤ fuel → digitsGo fuel n = ((Nat.digits 10 n).reverse).map digitCh := by
  intro fuel
  induction fuel with
  | zero =>
    intro n hn
    interval_cases n
    simp [digitsGo]
  | succ fuel ih =>
    intro n hn
    match n with
    | 0 => simp [digitsGo]
    | m + 1 =>
      have hdiv : (m + 1) / 10 ≤ fuel := by
        have := Nat.div_lt_self (Nat.succ_pos m) (by norm_num : 1 < 10)
        omega
      rw [digitsGo, ih _ hdiv, Nat.digits_def' (by norm_num : 1 < 10) (Nat.succ_pos m)]
      simp

theorem natDigits_eq (n : ℕ) :
    natDigits n = if n = 0 then ['0'] else ((Nat.digits 10 n).reverse).map digitCh := by
  unfold natDigits
  split
  · rfl
  · exact digitsGo_eq_digits n n le_rfl

theorem digitCh_isDigit {d : ℕ} (hd : d < 10) : (digitCh d).isDigit = true := by
  interval_cases d <;> decide

theorem digitCh_inj {d e : ℕ} (hd : d < 10) (he : e < 10) (h : digitCh d = digitCh e) :
    d = e := by
  interval_cases d <;> interval_cases e <;> simp_all <;> revert h <;> decide

/-- Characters of `natDigits` are decimal digits. -/
theorem natDigits_isDigit (n : ℕ) : ∀ c ∈ natDigits n, c.isDigit = true := by
  rw [natDigits_eq]
  split
  · intro c hc; simp at hc; subst hc; decide
  · intro c hc
    simp only [List.mem_map, List.mem_reverse] at hc
    obtain ⟨d, hd, rfl⟩ := hc
    exact digitCh_isDigit (Nat.digits_lt_base (by norm_num) hd)

theorem natDigits_ne_nil (n : ℕ) : natDigits n ≠ [] := by
  rw [natDigits_eq]
  split
  · simp
  · simp only [ne_eq, List.map_eq_nil_iff, List.reverse_eq_nil_iff]
    exact Nat.digits_ne_nil_iff_ne_zero.2 (by assumption)

theorem map_digitCh_inj :
    ∀ l₁ l₂ : List ℕ, (∀ d ∈ l₁, d < 10) → (∀ d ∈ l₂, d < 10) →
      l₁.map digitCh = l₂.map digitCh → l₁ = l₂ := by
  intro l₁
  induction l₁ with
  | nil => intro l₂ _ _ h; cases l₂ <;> simp_all
  | cons d l ih =>
    intro l₂ h₁ h₂ h
    cases l₂ with
    | nil => simp at h
    | cons e l' =>
      simp only [List.map_cons, List.cons.injEq] at h
      have hde : d = e :=
        digitCh_inj (h₁ d (by simp)) (h₂ e (by simp)) h.1
      have := ih l' (fun x hx => h₁ x (by simp [hx])) (fun x hx => h₂ x (by simp [hx])) h.2
      simp [hde, this]

theorem natDigits_inj {m n : ℕ} (h : natDigits m = natDigits n) : m = n := by
  rw [natDigits_eq, natDigits_eq] at h
  by_cases hm : m = 0 <;> by_cases hn : n = 0
  · omega
  · exfalso
    simp only [hm, if_pos, if_neg hn] at h
    have hdig : Nat.digits 10 n = [0] := by
      have := map_digitCh_inj [0] ((Nat.digits 10 n).reverse) (by simp)
        (fun d hd => Nat.digits_lt_base (by norm_num) (List.mem_reverse.1 hd))
        (by simpa using h)
      rw [← List.reverse_reverse (Nat.digits 10 n), ← this]
      rfl
    have hof := Nat.ofDigits_digits 10 n
    rw [hdig] at hof
    simp [Nat.ofDigits] at hof
    exact hn hof.symm
  · exfalso
    simp only [hn, if_pos, if_neg hm] at h
    have hdig : Nat.digits 10 m = [0] := by
      have := map_digitCh_inj [0] ((Nat.digits 10 m).reverse) (by simp)
        (fun d hd => Nat.digits_lt_base (by norm_num) (List.mem_reverse.1 hd))
        (by simpa using h.symm)
      rw [← List.reverse_reverse (Nat.digits 10 m), ← this]
      rfl
    have hof := Nat.ofDigits_digits 10 m
    rw [hdig] at hof
    simp [Nat.ofDigits] at hof
    exact hm hof.symm
  · simp only [if_neg hm, if_neg hn] at h
    have := map_digitCh_inj ((Nat.digits 10 m).reverse) ((Nat.digits 10 n).reverse)
      (fun d hd => Nat.digits_lt_base (by norm_num) (List.mem_reverse.1 hd))
      (fun d hd => Nat.digits_lt_base (by norm_num) (List.mem_reverse.1 hd)) h
    have hrev : Nat.digits 10 m = Nat.digits 10 n := by
      rw [← List.reverse_reverse (Nat.digits 10 m), this, List.reverse_reverse]
    calc m = Nat.ofDigits 10 (Nat.digits 10 m) := (Nat.ofDigits_digits 10 m).symm
    _ = Nat.ofDigits 10 (Nat.digits 10 n) := by rw [hrev]
    _ = n := Nat.ofDigits_digits 10 n

theorem intChars_ne_nil (z : ℤ) : intChars z ≠ [] := by
  unfold intChars
  split
  · simp
  · exact natDigits_ne_nil _

/-- For a non-negative id every rendered character is a decimal digit. -/
theorem intChars_isDigit {z : ℤ} (hz : 0 ≤ z) : ∀ c ∈ intChars z, c.isDigit = true := by
  unfold intChars
  rw [if_neg (by omega)]
  exact natDigits_isDigit _

theorem isDigit_ne_special {c : Char} (h : c.isDigit = true) :
    c ≠ '<' ∧ c ≠ '>' ∧ c ≠ '/' ∧ c ≠ ' ' ∧ c ≠ '\n' ∧ c ≠ 't' ∧ c ≠ 'a' ∧ c ≠ 'g' ∧ c ≠ '-' := by
  refine ⟨?_, ?_, ?_, ?_, ?_, ?_, ?_, ?_, ?_⟩ <;>
    (intro hc; subst hc; exact absurd h (by decide))

/-- Every rendered character of an integer is a digit or the minus
sign. -/
theorem intChars_digit_or_minus (z : ℤ) :
    ∀ c ∈ intChars z, c.isDigit = true ∨ c = '-' := by
  unfold intChars
  split
  · intro c hc
    rcases List.mem_cons.1 hc with rfl | hc
    · exact Or.inr rfl
    · exact Or.inl (natDigits_isDigit _ c hc)
  · intro c hc
    exact Or.inl (natDigits_isDigit _ c hc)

theorem intChars_ne_lt (z : ℤ) : ∀ c ∈ intChars z, c ≠ '<' := by
  intro c hc
  rcases intChars_digit_or_minus z c hc with h | rfl
  · exact (isDigit_ne_special h).1
  · decide

theorem intChars_inj {y z : ℤ} (h : intChars y = intChars z) : y = z := by
  unfold intChars at h
  by_cases hy : y < 0 <;> by_cases hz : z < 0
  · rw [if_pos hy, if_pos hz] at h
    have h' : natDigits y.natAbs = natDigits z.natAbs := by
      simpa using h
    have := natDigits_inj h'
    omega
  · exfalso
    rw [if_pos hy, if_neg hz] at h
    have hmem : '-' ∈ natDigits z.toNat := by
      rw [← h]; simp
    have := natDigits_isDigit z.toNat '-' hmem
    simp [Char.isDigit] at this
  · exfalso
    rw [if_neg hy, if_pos hz] at h
    have hmem : '-' ∈ natDigits y.toNat := by
      rw [h]; simp
    have := natDigits_isDigit y.toNat '-' hmem
    simp [Char.isDigit] at this
  · rw [if_neg hy, if_neg hz] at h
    have := natDigits_inj h
    omega

/-! ## Sentence markers and the tagged wire format -/

/-- The opening marker `<tagN>` of `tag_sentences` / the extraction
regex, as a character list. -/
def openTagL (z : ℤ) : List Char :=
  '<' :: 't' :: 'a' :: 'g' :: (intChars z ++ ['>'])

/-- The closing marker `</tagN>`. -/
def closeTagL (z : ℤ) : List Char :=
  '<' :: '/' :: 't' :: 'a' :: 'g' :: (intChars z ++ ['>'])

/-- One tagged sentence `<tagN>s</tagN>` (the f-string in
`TextProcessor.tag_sentences`). -/
def wrapL (z : ℤ) (s : List Char) : List Char :=
  openTagL z ++ s ++ closeTagL z

/-- Model of Python `str.strip()`: drop leading and trailing
whitespace. -/
def trimL (s : List Char) : List Char :=
  ((s.dropWhile Char.isWhitespace).reverse.dropWhile Char.isWhitespace).reverse

/-- Translation of `TextProcessor.split_into_sentences`, with the NLTK
tokenizer abstracted as `tok`: empty or whitespace-only input yields
`[]`; otherwise tokenize, strip each sentence, and drop empties. -/
def split_into_sentences (tok : List Char → List (List Char)) (text : List Char) :
    List (List Char) :=
  if trimL text = [] then [] else ((tok text).map trimL).filter (· ≠ [])

/-- The tagging loop of `TextProcessor.tag_sentences` fused with the
final `" ".join`: wrap the sentences with ids `k, k+1, ...` and join
with single spaces. -/
def tagFrom (k : ℤ) : List (List Char) → List Char
  | [] => []
  | [s] => wrapL k s
  | s :: s' :: rest => wrapL k s ++ ' ' :: tagFrom (k + 1) (s' :: rest)

/-- Translation of `TextProcessor.tag_sentences` (ids start at 1). -/
def tag_sentences (tok : List Char → List (List Char)) (text : List Char) : List Char :=
  tagFrom 1 (split_into_sentences tok text)

/-- The lazy part `(.*?)close` of the extraction regex: find the
earliest occurrence of `closeL`, returning the characters before it;
`.` does not match a newline (Python `re` without `DOTALL`), so a
newline before the close makes the match fail. -/
def takeUntil (closeL : List Char) : List Char → Option (List Char)
  | [] => none
  | c :: cs =>
    if closeL.isPrefixOf (c :: cs) then some []
    else if c = '\n' then none
    else (takeUntil closeL cs).map (c :: ·)

/-- Model of `re.search` for a pattern `open(.*?)close` with literal
`open` and `close`: try every start position left to right; at a
position where `open` matches, lazily look for `close`; if no close
fits, backtrack to the next start position. -/
def reSearch (openL closeL : List Char) : List Char → Option (List Char)
  | [] => none
  | c :: cs =>
    if openL.isPrefixOf (c :: cs) then
      match takeUntil closeL ((c :: cs).drop openL.length) with
      | some mid => some mid
      | none => reSearch openL closeL cs
    else reSearch openL closeL cs

/-- Translation of `TextProcessor.extract_sentence_by_tag`:
`re.search(f"<tag{n}>(.*?)</tag{n}>", text)`, group 1 on a match and
`""` otherwise. -/
def extract_sentence_by_tag (text : List Char) (z : ℤ) : List Char :=
  (reSearch (openTagL z) (closeTagL z) text).getD []

/-- Python `" ".join` on character lists. -/
def joinSp : List (List Char) → List Char
  | [] => []
  | [s] => s
  | s :: s' :: rest => s ++ ' ' :: joinSp (s' :: rest)

/-- Translation of `TextProcessor.extract_sentences_for_tags`: extract
each tag's sentence, keep the non-empty ones in order, join with single
spaces. -/
def extract_sentences_for_tags (tagged : List Char) (nums : List ℤ) : List Char :=
  joinSp ((nums.map (extract_sentence_by_tag tagged)).filter (· ≠ []))

/-! ## Character-class facts about markers -/

/-- Every character of an opening marker after the first is not `<`. -/
theorem openTagL_tail_ne_lt (z : ℤ) :
    ∀ c ∈ (openTagL z).tail, c ≠ '<' := by
  intro c hc
  simp only [openTagL, List.tail_cons, List.mem_cons, List.mem_append,
    List.mem_singleton] at hc
  rcases hc with rfl | rfl | rfl | hc
  · decide
  · decide
  · decide
  · rcases hc with hc | hc
    · exact intChars_ne_lt z c hc
    · rcases hc with rfl | h0
      · decide
      · exact absurd h0 (List.not_mem_nil c)

/-- Every character of a closing marker after the first is not `<`. -/
theorem closeTagL_tail_ne_lt (z : ℤ) :
    ∀ c ∈ (closeTagL z).tail, c ≠ '<' := by
  intro c hc
  simp only [closeTagL, List.tail_cons, List.mem_cons, List.mem_append,
    List.mem_singleton] at hc
  rcases hc with rfl | rfl | rfl | rfl | hc
  · decide
  · decide
  · decide
  · decide
  · rcases hc with hc | hc
    · exact intChars_ne_lt z c hc
    · rcases hc with rfl | h0
      · decide
      · exact absurd h0 (List.not_mem_nil c)

/-! ## Unique-occurrence machinery

The central fact behind extraction correctness: in a tagged document
whose sentences contain no marker substrings, `<tagN>` occurs only at
the designated wrap positions.  `NoStart openL A B` says no match of
`openL` begins inside the region `A` when the text continues as `B`. -/

/-- Cases for a prefix of a concatenation: the pattern lies within the
first part, or it extends strictly past it. -/
theorem prefix_append_cases {p X Y : List Char} (h : p <+: X ++ Y) :
    p <+: X ∨ (X.length < p.length ∧ X <+: p ∧ p.drop X.length <+: Y) := by
  by_cases hlen : p.length ≤ X.length
  · left
    have hp := List.prefix_iff_eq_take.1 h
    rw [List.take_append_eq_append_take, Nat.sub_eq_zero_of_le hlen, List.take_zero,
      List.append_nil] at hp
    rw [hp]
    exact List.take_prefix _ _
  · right
    push_neg at hlen
    refine ⟨hlen, ?_, ?_⟩
    · have hp := List.prefix_iff_eq_take.1 h
      have hX : X = p.take X.length := by
        have := congrArg (List.take X.length) hp
        rw [List.take_take, min_eq_left (le_of_lt hlen),
          List.take_append_eq_append_take, Nat.sub_self, List.take_zero,
          List.append_nil, List.take_length] at this
        exact this.symm
      rw [hX]
      exact List.take_prefix _ _
    · obtain ⟨t, ht⟩ := h
      refine ⟨t, ?_⟩
      have := congrArg (List.drop X.length) ht
      rwa [List.drop_left, List.drop_append_of_le_length (le_of_lt hlen)] at this

/-- A prefix relation forces the head characters to agree. -/
theorem not_prefix_of_head_ne {p X : List Char} {a b : Char}
    (hp : p.head? = some a) (hX : X.head? = some b) (hne : a ≠ b) : ¬ p <+: X := by
  intro h
  cases p with
  | nil => simp at hp
  | cons c cs =>
    cases X with
    | nil => simp at hX
    | cons d ds =>
      simp only [List.head?_cons, Option.some.injEq] at hp hX
      exact hne (hp ▸ hX ▸ (List.cons_prefix_cons.1 h).1)

/-- The head of `l.drop r` for `1 ≤ r` is an element of `l.tail`. -/
theorem head_drop_mem_tail {l : List Char} {r : ℕ} (h1 : 1 ≤ r) (h2 : r < l.length) :
    ∃ c, (l.drop r).head? = some c ∧ c ∈ l.tail := by
  have htl : r - 1 < l.tail.length := by
    rw [List.length_tail]
    omega
  refine ⟨l.tail[r - 1], ?_, List.getElem_mem htl⟩
  have hdrop : l.drop r = (l.tail).drop (r - 1) := by
    rw [← List.drop_one, List.drop_drop]
    congr 1
    omega
  rw [hdrop, List.drop_eq_getElem_cons htl]
  rfl

/-- A marker (head `<`, no other `<`) has no proper self-overlap: a
strict mid-suffix of it is never a prefix of text starting with `<`. -/
theorem marker_drop_not_prefix {m X : List Char} {r : ℕ}
    (_hm : m.head? = some '<') (htail : ∀ c ∈ m.tail, c ≠ '<')
    (hX : X.head? = some '<') (h1 : 1 ≤ r) (h2 : r < m.length) :
    ¬ m.drop r <+: X := by
  obtain ⟨c, hc, hmem⟩ := head_drop_mem_tail h1 h2
  exact not_prefix_of_head_ne hc hX (htail c hmem)

/-- No occurrence of a marker substring within a sentence. -/
def MarkerFree (s : List Char) : Prop :=
  ∀ z : ℤ, ¬ openTagL z <:+: s ∧ ¬ closeTagL z <:+: s

/-- No match of `openL` begins strictly inside region `A` when the text
continues as `B`. -/
def NoStart (openL A B : List Char) : Prop :=
  ∀ q < A.length, ¬ openL <+: A.drop q ++ B

theorem noStart_append {o A A' B : List Char}
    (h₁ : NoStart o A (A' ++ B)) (h₂ : NoStart o A' B) : NoStart o (A ++ A') B := by
  intro q hq
  rcases Nat.lt_or_ge q A.length with hlt | hge
  · rw [List.drop_append_of_le_length (le_of_lt hlt), List.append_assoc]
    exact h₁ q hlt
  · obtain ⟨q', rfl⟩ := Nat.exists_eq_add_of_le hge
    rw [List.length_append] at hq
    rw [List.drop_append]
    exact h₂ q' (by omega)

theorem noStart_of_forall_ne {o A B : List Char} {h : Char}
    (hh : o.head? = some h) (hA : ∀ c ∈ A, c ≠ h) : NoStart o A B := by
  intro q hq hpre
  have hd : A.drop q = A[q] :: A.drop (q + 1) := List.drop_eq_getElem_cons hq
  have hhead : (A.drop q ++ B).head? = some A[q] := by
    rw [hd]
    rfl
  exact not_prefix_of_head_ne hh hhead
    (fun he => hA A[q] (A.getElem_mem hq) he.symm) hpre

theorem noStart_cons {o A B : List Char} {c : Char}
    (h0 : ¬ o <+: c :: (A ++ B)) (hA : NoStart o A B) : NoStart o (c :: A) B := by
  intro q hq
  cases q with
  | zero => simpa using h0
  | succ q' =>
    simp only [List.length_cons, Nat.succ_lt_succ_iff] at hq
    simpa using hA q' hq

/-- Any match of an opening marker at the very start of a wrapped
sentence forces the two ids to agree.  The digit run of the pattern and
the digit run of the text marker must coincide, because a digit never
equals `>`. -/
theorem digitRun_eq :
    ∀ D₁ D₂ A B : List Char, (∀ c ∈ D₁, c.isDigit = true) → (∀ c ∈ D₂, c.isDigit = true) →
      (D₁ ++ '>' :: A) <+: (D₂ ++ '>' :: B) → D₁ = D₂ := by
  intro D₁
  induction D₁ with
  | nil =>
    intro D₂ A B _ h₂ h
    cases D₂ with
    | nil => rfl
    | cons d ds =>
      exfalso
      simp only [List.nil_append, List.cons_append] at h
      have := (List.cons_prefix_cons.1 h).1
      exact (isDigit_ne_special (h₂ d (by simp))).2.1 this.symm
  | cons c cs ih =>
    intro D₂ A B h₁ h₂ h
    cases D₂ with
    | nil =>
      exfalso
      simp only [List.cons_append, List.nil_append] at h
      have := (List.cons_prefix_cons.1 h).1
      exact (isDigit_ne_special (h₁ c (by simp))).2.1 this
    | cons d ds =>
      simp only [List.cons_append] at h
      obtain ⟨hcd, hrest⟩ := List.cons_prefix_cons.1 h
      have := ih ds A B (fun x hx => h₁ x (by simp [hx])) (fun x hx => h₂ x (by simp [hx])) hrest
      rw [hcd, this]

/-- An opening marker that matches where `<tagk>` starts (`k ≥ 1`) has
the same id. -/
theorem openTagL_prefix_openTagL {y k : ℤ} (hk : 1 ≤ k) {B : List Char}
    (h : openTagL y <+: openTagL k ++ B) : y = k := by
  unfold openTagL at h
  simp only [List.cons_append] at h
  have h1 := (List.cons_prefix_cons.1 h).2
  have h2 := (List.cons_prefix_cons.1 h1).2
  have h3 := (List.cons_prefix_cons.1 h2).2
  have h4 := (List.cons_prefix_cons.1 h3).2
  by_cases hy : y < 0
  · exfalso
    have hne : intChars y = '-' :: natDigits y.natAbs := by
      unfold intChars
      rw [if_pos hy]
    obtain ⟨d, hd⟩ : ∃ d, intChars k = d :: (intChars k).tail :=
      ⟨(intChars k).head (intChars_ne_nil k), (List.head_cons_tail _ _).symm⟩
    have hdig : d.isDigit = true :=
      intChars_isDigit (by omega : (0:ℤ) ≤ k) d (by rw [hd]; exact List.mem_cons_self _ _)
    rw [hne, hd] at h4
    simp only [List.cons_append] at h4
    have hhead := (List.cons_prefix_cons.1 h4).1
    exact (isDigit_ne_special hdig).2.2.2.2.2.2.2.2 hhead.symm
  · have h5 : (intChars y ++ '>' :: []) <+: (intChars k ++ '>' :: B) := by
      simpa using h4
    have := digitRun_eq (intChars y) (intChars k) [] B
      (intChars_isDigit (by omega : (0:ℤ) ≤ y)) (intChars_isDigit (by omega : (0:ℤ) ≤ k)) h5
    exact intChars_inj this

/-- No opening-marker match can begin inside a marker-free sentence
when the following text starts with `<`. -/
theorem noStart_sentence {i : ℤ} {s B : List Char} (hfree : ¬ openTagL i <:+: s)
    (hB : B.head? = some '<') : NoStart (openTagL i) s B := by
  intro q hq h
  rcases prefix_append_cases h with h1 | ⟨hlen, _h2, h3⟩
  · exact hfree (h1.isInfix.trans (List.drop_suffix q s).isInfix)
  · have hr : (s.drop q).length = s.length - q := List.length_drop q s
    exact marker_drop_not_prefix (m := openTagL i) rfl (openTagL_tail_ne_lt i) hB
      (by omega) (by omega) h3

/-- No opening-marker match for a foreign id can begin inside the
marker `<tagk>` itself. -/
theorem noStart_openTagL {i k : ℤ} (hk : 1 ≤ k) (hik : i ≠ k) (B : List Char) :
    NoStart (openTagL i) (openTagL k) B := by
  have hshape : openTagL k = '<' :: (openTagL k).tail := rfl
  rw [hshape]
  refine noStart_cons ?_ (noStart_of_forall_ne rfl (openTagL_tail_ne_lt k))
  intro hpre
  rw [← List.cons_append, ← hshape] at hpre
  exact hik (openTagL_prefix_openTagL hk hpre)

/-- No opening-marker match can begin inside a closing marker. -/
theorem noStart_closeTagL (i k : ℤ) (B : List Char) :
    NoStart (openTagL i) (closeTagL k) B := by
  have hshape : closeTagL k = '<' :: (closeTagL k).tail := rfl
  rw [hshape]
  refine noStart_cons ?_ (noStart_of_forall_ne rfl (closeTagL_tail_ne_lt k))
  intro hpre
  have h1 := (List.cons_prefix_cons.1 hpre).2
  have : ('t' : Char) = '/' := (List.cons_prefix_cons.1 h1).1
  exact absurd this (by decide)

/-- No opening-marker match for a foreign id begins anywhere inside a
wrapped clean sentence. -/
theorem noStart_wrap {i k : ℤ} (hk : 1 ≤ k) (hik : i ≠ k) {s : List Char}
    (hfree : MarkerFree s) (B : List Char) : NoStart (openTagL i) (wrapL k s) B := by
  unfold wrapL
  rw [List.append_assoc]
  refine noStart_append (noStart_openTagL hk hik _) ?_
  refine noStart_append (noStart_sentence (hfree i).1 rfl) (noStart_closeTagL i k B)

theorem noStart_space (i : ℤ) (B : List Char) : NoStart (openTagL i) [' '] B :=
  noStart_of_forall_ne rfl (by intro c hc; rw [List.mem_singleton] at hc; subst hc; decide)

/-- `re.search` skips a region in which no match can begin. -/
theorem reSearch_skip {openL closeL A B : List Char} (h : NoStart openL A B) :
    reSearch openL closeL (A ++ B) = reSearch openL closeL B := by
  induction A with
  | nil => rfl
  | cons a A' ih =>
    have h0 : ¬ openL <+: a :: (A' ++ B) := by simpa using h 0 (by simp)
    rw [List.cons_append, reSearch, if_neg (fun hp => h0 (List.isPrefixOf_iff_prefix.1 hp))]
    exact ih fun q hq => by simpa using h (q + 1) (by simp only [List.length_cons]; omega)

/-- The lazy close search on a clean, newline-free sentence finds
exactly the closing marker that follows it. -/
theorem takeUntil_eval {k : ℤ} {s B : List Char} (hfree : ¬ closeTagL k <:+: s)
    (hnl : '\n' ∉ s) : takeUntil (closeTagL k) (s ++ (closeTagL k ++ B)) = some s := by
  induction s with
  | nil =>
    rw [List.nil_append,
      show closeTagL k ++ B = '<' :: ((closeTagL k).tail ++ B) from rfl, takeUntil,
      if_pos (List.isPrefixOf_iff_prefix.2 (by
        rw [← List.cons_append, ← show closeTagL k = '<' :: (closeTagL k).tail from rfl]
        exact List.prefix_append _ _))]
  | cons c s' ih =>
    have hnp : ¬ closeTagL k <+: (c :: s') ++ (closeTagL k ++ B) := by
      intro h
      rcases prefix_append_cases h with h1 | ⟨hlen, _h2, h3⟩
      · exact hfree h1.isInfix
      · exact marker_drop_not_prefix (m := closeTagL k) rfl (closeTagL_tail_ne_lt k)
          (show (closeTagL k ++ B).head? = some '<' from rfl)
          (by simp) (by simpa using hlen) h3
    have hc : c ≠ '\n' := fun hc => hnl (hc ▸ List.mem_cons_self c s')
    have hfree' : ¬ closeTagL k <:+: s' := fun h =>
      hfree (h.trans (List.suffix_cons c s').isInfix)
    have hnl' : '\n' ∉ s' := fun h => hnl (List.mem_cons_of_mem c h)
    rw [List.cons_append, takeUntil,
      if_neg (fun hp => hnp (by simpa using List.isPrefixOf_iff_prefix.1 hp)),
      if_neg hc, ih hfree' hnl']
    rfl

/-- `re.search` for `<tagk>(.*?)</tagk>` on text beginning with the
wrap of a clean newline-free sentence returns that sentence. -/
theorem reSearch_wrap {k : ℤ} {s B : List Char} (hfree : MarkerFree s) (hnl : '\n' ∉ s) :
    reSearch (openTagL k) (closeTagL k) (wrapL k s ++ B) = some s := by
  have hshape : wrapL k s ++ B = openTagL k ++ (s ++ (closeTagL k ++ B)) := by
    unfold wrapL
    simp [List.append_assoc]
  have hcons : wrapL k s ++ B = '<' :: ((openTagL k).tail ++ (s ++ (closeTagL k ++ B))) := by
    rw [hshape]
    rfl
  rw [hcons, reSearch, ← List.cons_append,
    ← show openTagL k = '<' :: (openTagL k).tail from rfl,
    if_pos (List.isPrefixOf_iff_prefix.2 (List.prefix_append _ _)),
    List.drop_left, takeUntil_eval (hfree k).2 hnl]

/-- Every sentence of the list is marker-free. -/
def CleanS (S : List (List Char)) : Prop := ∀ s ∈ S, MarkerFree s

/-- No sentence of the list contains a newline. -/
def NlFreeS (S : List (List Char)) : Prop := ∀ s ∈ S, '\n' ∉ s

/-- Extraction correctness over the serialized tagged document: the
search for id `k + j` finds exactly the `j`-th sentence. -/
theorem reSearch_tagFrom :
    ∀ (S : List (List Char)) (k : ℤ) (j : ℕ), 1 ≤ k → CleanS S → NlFreeS S →
      ∀ hj : j < S.length,
        reSearch (openTagL (k + j)) (closeTagL (k + j)) (tagFrom k S) = some (S.get ⟨j, hj⟩) := by
  intro S
  induction S with
  | nil => intro k j _ _ _ hj; simp at hj
  | cons s rest ih =>
    intro k j hk hC hN hj
    cases rest with
    | nil =>
      have hj0 : j = 0 := by
        simp only [List.length_cons, List.length_nil] at hj
        omega
      subst hj0
      rw [show ((0 : ℕ) : ℤ) = 0 from rfl, add_zero, tagFrom,
        ← List.append_nil (wrapL k s),
        reSearch_wrap (hC s (by simp)) (hN s (by simp))]
      rfl
    | cons s' rest' =>
      cases j with
      | zero =>
        rw [show ((0 : ℕ) : ℤ) = 0 from rfl, add_zero, tagFrom,
          reSearch_wrap (hC s (by simp)) (hN s (by simp))]
        rfl
      | succ j' =>
        have hik : k + ((j' : ℤ) + 1) ≠ k := by omega
        have hcast : ((j' + 1 : ℕ) : ℤ) = (j' : ℤ) + 1 := by push_cast; ring
        rw [hcast, tagFrom, reSearch_skip (noStart_wrap hk hik (hC s (by simp)) _),
          show (' ' :: tagFrom (k + 1) (s' :: rest')) =
            [' '] ++ tagFrom (k + 1) (s' :: rest') from rfl,
          reSearch_skip (noStart_space _ _)]
        have harith : k + ((j' : ℤ) + 1) = (k + 1) + (j' : ℤ) := by ring
        rw [harith]
        have := ih (k + 1) j' (by omega)
          (fun x hx => hC x (List.mem_cons_of_mem s hx))
          (fun x hx => hN x (List.mem_cons_of_mem s hx))
          (by simpa using Nat.succ_lt_succ_iff.1 (by simpa using hj))
        rw [this]
        rfl

/-- A search for an id rendered by no sentence of the document fails:
no opening marker for it occurs anywhere. -/
theorem reSearch_tagFrom_none :
    ∀ (S : List (List Char)) (k i : ℤ), 1 ≤ k → CleanS S →
      (∀ j : ℕ, j < S.length → i ≠ k + j) →
      reSearch (openTagL i) (closeTagL i) (tagFrom k S) = none := by
  intro S
  induction S with
  | nil => intro k i _ _ _; rfl
  | cons s rest ih =>
    intro k i hk hC hno
    have hik : i ≠ k := by
      have := hno 0 (by simp)
      simpa using this
    cases rest with
    | nil =>
      rw [tagFrom, ← List.append_nil (wrapL k s),
        reSearch_skip (noStart_wrap hk hik (hC s (by simp)) [])]
      rfl
    | cons s' rest' =>
      rw [tagFrom, reSearch_skip (noStart_wrap hk hik (hC s (by simp)) _),
        show (' ' :: tagFrom (k + 1) (s' :: rest')) =
          [' '] ++ tagFrom (k + 1) (s' :: rest') from rfl,
        reSearch_skip (noStart_space _ _)]
      exact ih (k + 1) i (by omega)
        (fun x hx => hC x (List.mem_cons_of_mem s hx))
        (fun j hj => by
          have h2 := hno (j + 1) (by simp only [List.length_cons] at hj ⊢; omega)
          intro hcon
          apply h2
          push_cast
          omega)

/-! ## The mapping scanner (`get_sentence_mapping`)

`re.finditer(r"<tag(\d+)>(.*?)</tag\1>", text)`: at each position, try
to parse an opening marker with a greedy digit run, then lazily look
for the closing marker built from the same digit characters (the
backreference); matches are non-overlapping, scanning resumes after a
match. -/

/-- Python `int(...)` on a non-empty string of digit characters. -/
def digitsVal (ds : List Char) : ℕ :=
  ds.foldl (fun acc c => 10 * acc + (c.toNat - 48)) 0

/-- Parse `<tag` followed by a greedy non-empty digit run and `>`; on
success return the digit characters and the rest of the text.  The
regex `<tag(\d+)>` matches exactly like this: shortening the greedy
digit run always leaves a digit (never `>`) next, so no other
backtracking alternative exists. -/
def tryOpen : List Char → Option (List Char × List Char)
  | '<' :: 't' :: 'a' :: 'g' :: rest =>
    let p := rest.span Char.isDigit
    if p.1 = [] then none
    else match p.2 with
      | '>' :: rest2 => some (p.1, rest2)
      | _ => none
  | _ => none

/-- Model of `re.search(r"<tag\d+>", text) is not None`: does an
opening sentence marker occur anywhere? -/
def hasTagMarker : List Char → Bool
  | [] => false
  | c :: cs => (tryOpen (c :: cs)).isSome || hasTagMarker cs

/-- Try the full pattern `<tag(\d+)>(.*?)</tag\1>` at the current
position; on success return the id, the content (group 2) and the text
after the match. -/
def tryMatchMapping (t : List Char) : Option (ℕ × List Char × List Char) :=
  match tryOpen t with
  | none => none
  | some (ds, rest) =>
    let closeL := '<' :: '/' :: 't' :: 'a' :: 'g' :: (ds ++ ['>'])
    match takeUntil closeL rest with
    | none => none
    | some content => some (digitsVal ds, content, rest.drop (content.length + closeL.length))

theorem tryOpen_length {t ds r : List Char} (h : tryOpen t = some (ds, r)) :
    r.length < t.length := by
  unfold tryOpen at h
  split at h
  · rename_i c0 rest
    simp only [] at h
    split at h
    · exact absurd h (by simp)
    · split at h
      · rename_i rest2 heq
        simp only [Option.some.injEq, Prod.mk.injEq] at h
        have hsub : (rest.span Char.isDigit).2.length ≤ rest.length := by
          rw [List.span_eq_take_drop]
          exact (List.dropWhile_sublist _).length_le
        have hlen2 : (rest.span Char.isDigit).2.length = rest2.length + 1 := by
          rw [heq]
          rfl
        have hr : r = rest2 := h.2.symm
        subst hr
        simp only [List.length_cons]
        omega
      · exact absurd h (by simp)
  · exact absurd h (by simp)

theorem tryMatchMapping_length {t : List Char} {i : ℕ} {c a : List Char}
    (h : tryMatchMapping t = some (i, c, a)) : a.length < t.length := by
  unfold tryMatchMapping at h
  split at h
  · exact absurd h (by simp)
  · rename_i ds rest heq
    simp only [] at h
    split at h
    · exact absurd h (by simp)
    · simp only [Option.some.injEq, Prod.mk.injEq] at h
      obtain ⟨_hi, hc, ha⟩ := h
      calc a.length ≤ rest.length := by
            rw [← ha, List.length_drop]
            omega
      _ < t.length := tryOpen_length heq

/-- Fuelled body of the `finditer` scan (each step strictly shrinks the
text, so fuel equal to the text length always suffices; the fuel makes
the recursion structural). -/
def scanGo : ℕ → List Char → List (ℕ × List Char)
  | _, [] => []
  | 0, _ :: _ => []
  | fuel + 1, c :: cs =>
    match tryMatchMapping (c :: cs) with
    | some (i, content, after) => (i, content) :: scanGo fuel after
    | none => scanGo fuel cs

/-- Translation of the `finditer` scan: emit each non-overlapping match
left to right, resuming after each match. -/
def scanMappings (t : List Char) : List (ℕ × List Char) := scanGo t.length t

theorem scanGo_congr :
    ∀ (fuel fuel' : ℕ) (t : List Char), t.length ≤ fuel → t.length ≤ fuel' →
      scanGo fuel t = scanGo fuel' t := by
  intro fuel
  induction fuel with
  | zero =>
    intro fuel' t ht _
    have : t = [] := List.length_eq_zero.1 (by omega)
    subst this
    cases fuel' <;> rfl
  | succ fuel ih =>
    intro fuel' t ht ht'
    cases t with
    | nil => cases fuel' <;> rfl
    | cons c cs =>
      cases fuel' with
      | zero => simp at ht'
      | succ f' =>
        rw [scanGo, scanGo]
        cases hm : tryMatchMapping (c :: cs) with
        | some v =>
          obtain ⟨i, content, after⟩ := v
          have hlt := tryMatchMapping_length hm
          simp only [List.length_cons] at ht ht' hlt
          dsimp only
          rw [ih f' after (by omega) (by omega)]
        | none =>
          simp only [List.length_cons] at ht ht'
          dsimp only
          exact ih f' cs (by omega) (by omega)

/-- Translation of `TextProcessor.get_sentence_mapping`: tag first when
no marker is present (auto-detect), then scan all marker pairs. -/
def get_sentence_mapping (tok : List Char → List (List Char)) (text : List Char) :
    List (ℕ × List Char) :=
  scanMappings (if hasTagMarker text then text else tag_sentences tok text)

/-- The expected mapping: sentences enumerated from `m`. -/
def enumFromN (m : ℕ) : List (List Char) → List (ℕ × List Char)
  | [] => []
  | s :: rest => (m, s) :: enumFromN (m + 1) rest

theorem scanMappings_cons_of_match {c : Char} {cs : List Char} {i : ℕ}
    {content after : List Char} (h : tryMatchMapping (c :: cs) = some (i, content, after)) :
    scanMappings (c :: cs) = (i, content) :: scanMappings after := by
  unfold scanMappings
  rw [List.length_cons, scanGo, h]
  have hlt := tryMatchMapping_length h
  simp only [List.length_cons] at hlt
  dsimp only
  rw [scanGo_congr cs.length after.length after (by omega) le_rfl]

theorem scanMappings_cons_of_none {c : Char} {cs : List Char}
    (h : tryMatchMapping (c :: cs) = none) :
    scanMappings (c :: cs) = scanMappings cs := by
  unfold scanMappings
  rw [List.length_cons, scanGo, h]

/-! ## Evaluating the scanner on a tagged document -/

theorem takeWhile_append_of_not {p : Char → Bool} {A B : List Char} {b : Char}
    (hA : ∀ c ∈ A, p c = true) (hb : p b = false) :
    (A ++ b :: B).takeWhile p = A ∧ (A ++ b :: B).dropWhile p = b :: B := by
  induction A with
  | nil =>
    constructor
    · rw [List.nil_append, List.takeWhile_cons, hb]
      simp
    · rw [List.nil_append, List.dropWhile_cons, hb]
      simp
  | cons a A' ih =>
    have ha : p a = true := hA a (by simp)
    obtain ⟨ih1, ih2⟩ := ih fun c hc => hA c (by simp [hc])
    constructor
    · rw [List.cons_append, List.takeWhile_cons, ha]
      simp only [if_true]
      rw [ih1]
    · rw [List.cons_append, List.dropWhile_cons, ha]
      simp only [if_true]
      rw [ih2]

theorem digitCh_toNat {d : ℕ} (hd : d < 10) : (digitCh d).toNat = 48 + d := by
  interval_cases d <;> rfl

theorem foldl_digits_eq :
    ∀ (L : List ℕ) (acc : ℕ), (∀ d ∈ L, d < 10) →
      ((L.reverse.map digitCh).foldl (fun acc c => 10 * acc + (c.toNat - 48)) acc) =
        acc * 10 ^ L.length + Nat.ofDigits 10 L := by
  intro L
  induction L with
  | nil => intro acc _; simp [Nat.ofDigits]
  | cons d L' ih =>
    intro acc hL
    rw [List.reverse_cons, List.map_append, List.foldl_append,
      ih acc (fun x hx => hL x (by simp [hx]))]
    simp only [List.map_cons, List.map_nil, List.foldl_cons, List.foldl_nil]
    rw [digitCh_toNat (hL d (by simp)), Nat.ofDigits_cons]
    have h10 : 10 ^ (d :: L').length = 10 ^ L'.length * 10 := by
      rw [List.length_cons]
      ring
    rw [h10]
    ring_nf
    omega

/-- `int(str(n)) = n` for the digit printer. -/
theorem digitsVal_natDigits (n : ℕ) : digitsVal (natDigits n) = n := by
  unfold digitsVal
  rw [natDigits_eq]
  by_cases hn : n = 0
  · subst hn
    rfl
  · rw [if_neg hn]
    have := foldl_digits_eq (Nat.digits 10 n) 0
      (fun d hd => Nat.digits_lt_base (by norm_num) hd)
    rw [this, Nat.ofDigits_digits]
    simp

theorem wrap_append_shape (k : ℤ) (s X : List Char) :
    wrapL k s ++ X = openTagL k ++ (s ++ (closeTagL k ++ X)) := by
  unfold wrapL
  simp [List.append_assoc]

/-- `tryOpen` succeeds exactly at a wrap start, yielding the id's digit
run. -/
theorem tryOpen_wrap {k : ℤ} (hk : 1 ≤ k) (s X : List Char) :
    tryOpen (wrapL k s ++ X) = some (intChars k, s ++ (closeTagL k ++ X)) := by
  rw [wrap_append_shape]
  have hshape : openTagL k ++ (s ++ (closeTagL k ++ X)) =
      '<' :: 't' :: 'a' :: 'g' :: (intChars k ++ '>' :: (s ++ (closeTagL k ++ X))) := by
    unfold openTagL
    simp [List.append_assoc]
  rw [hshape]
  unfold tryOpen
  have hspan : (intChars k ++ '>' :: (s ++ (closeTagL k ++ X))).span Char.isDigit =
      (intChars k, '>' :: (s ++ (closeTagL k ++ X))) := by
    rw [List.span_eq_take_drop]
    obtain ⟨h1, h2⟩ := takeWhile_append_of_not (p := Char.isDigit)
      (intChars_isDigit (by omega : (0:ℤ) ≤ k)) (show ('>').isDigit = false by decide)
    rw [h1, h2]
  simp only [hspan]
  rw [if_neg (intChars_ne_nil k)]

/-- The full pattern matches at a wrap start of a clean sentence and
consumes exactly the wrap. -/
theorem tryMatch_wrap {k : ℤ} (hk : 1 ≤ k) {s : List Char} (hfree : MarkerFree s)
    (hnl : '\n' ∉ s) (B : List Char) :
    tryMatchMapping (wrapL k s ++ B) = some (k.toNat, s, B) := by
  unfold tryMatchMapping
  rw [tryOpen_wrap hk s B]
  simp only []
  have hclose : ('<' :: '/' :: 't' :: 'a' :: 'g' :: (intChars k ++ ['>'])) = closeTagL k := rfl
  simp only [hclose]
  rw [takeUntil_eval (hfree k).2 hnl]
  simp only []
  have hval : digitsVal (intChars k) = k.toNat := by
    unfold intChars
    rw [if_neg (by omega)]
    exact digitsVal_natDigits _
  have hdrop : (s ++ (closeTagL k ++ B)).drop (s.length + (closeTagL k).length) = B := by
    rw [show s ++ (closeTagL k ++ B) = (s ++ closeTagL k) ++ B from
        (List.append_assoc s (closeTagL k) B).symm,
      show s.length + (closeTagL k).length = (s ++ closeTagL k).length from
        (List.length_append s (closeTagL k)).symm,
      List.drop_left]
  rw [hval, hdrop]

/-- The scanner on a serialized tagged document recovers exactly the
enumerated sentences. -/
theorem scanMappings_tagFrom :
    ∀ (S : List (List Char)) (k : ℤ), 1 ≤ k → CleanS S → NlFreeS S →
      scanMappings (tagFrom k S) = enumFromN k.toNat S := by
  intro S
  induction S with
  | nil =>
    intro k _ _ _
    rw [tagFrom, scanMappings, enumFromN]
    rfl
  | cons s rest ih =>
    intro k hk hC hN
    have hfree := hC s (by simp)
    have hnl := hN s (by simp)
    cases rest with
    | nil =>
      rw [tagFrom, ← List.append_nil (wrapL k s)]
      have hm := tryMatch_wrap hk hfree hnl []
      rw [wrap_append_shape] at hm ⊢
      rw [show openTagL k ++ (s ++ (closeTagL k ++ [])) =
          '<' :: ((openTagL k).tail ++ (s ++ (closeTagL k ++ []))) from rfl] at hm ⊢
      rw [scanMappings_cons_of_match hm, scanMappings, enumFromN, enumFromN]
      rfl
    | cons s' rest' =>
      rw [tagFrom]
      have hm := tryMatch_wrap hk hfree hnl (' ' :: tagFrom (k + 1) (s' :: rest'))
      rw [wrap_append_shape] at hm ⊢
      rw [show openTagL k ++ (s ++ (closeTagL k ++ (' ' :: tagFrom (k + 1) (s' :: rest')))) =
          '<' :: ((openTagL k).tail ++ (s ++ (closeTagL k ++ (' ' :: tagFrom (k + 1) (s' :: rest'))))) from rfl] at hm ⊢
      rw [scanMappings_cons_of_match hm,
        scanMappings_cons_of_none (show tryMatchMapping (' ' :: tagFrom (k + 1) (s' :: rest')) = none from rfl),
        ih (k + 1) (by omega) (fun x hx => hC x (List.mem_cons_of_mem s hx))
          (fun x hx => hN x (List.mem_cons_of_mem s hx))]
      have : (k + 1).toNat = k.toNat + 1 := by omega
      rw [this]
      rfl

/-- A serialized non-empty tagged document is detected as tagged. -/
theorem hasTagMarker_tagFrom {k : ℤ} (hk : 1 ≤ k) (s : List Char) (rest : List (List Char)) :
    hasTagMarker (tagFrom k (s :: rest)) = true := by
  have hopen : ∀ X, hasTagMarker (wrapL k s ++ X) = true := by
    intro X
    rw [show wrapL k s ++ X = '<' :: ((openTagL k).tail ++ (s ++ (closeTagL k ++ X))) from by
      rw [wrap_append_shape]
      rfl]
    rw [hasTagMarker]
    have := tryOpen_wrap hk s X
    rw [wrap_append_shape] at this
    rw [show openTagL k ++ (s ++ (closeTagL k ++ X)) =
      '<' :: ((openTagL k).tail ++ (s ++ (closeTagL k ++ X))) from rfl] at this
    rw [this]
    rfl
  cases rest with
  | nil =>
    rw [tagFrom, ← List.append_nil (wrapL k s)]
    exact hopen []
  | cons s' rest' =>
    rw [tagFrom]
    exact hopen _

/-! ## Re-tagging always re-wraps (for the idempotence claim) -/

/-- The sentence list a stable segmenter recovers from a tagged
document: each original sentence, still wrapped in its marker. -/
def wrapIdx (m : ℤ) : List (List Char) → List (List Char)
  | [] => []
  | s :: rest => wrapL m s :: wrapIdx (m + 1) rest

/-- The spec's "segmentation is stable" hypothesis: splitting the
tagged document recovers exactly the wrapped sentences, in order. -/
def StableSegmentation (tok : List Char → List (List Char)) (t : List Char) : Prop :=
  split_into_sentences tok (tag_sentences tok t) = wrapIdx 1 (split_into_sentences tok t)

theorem openTagL_length_pos (z : ℤ) : 0 < (openTagL z).length := by
  simp [openTagL]

theorem closeTagL_length_pos (z : ℤ) : 0 < (closeTagL z).length := by
  simp [closeTagL]

theorem wrapL_length (z : ℤ) (s : List Char) :
    (wrapL z s).length = (openTagL z).length + s.length + (closeTagL z).length := by
  simp [wrapL]
  omega

/-- Wrapping each sentence again strictly lengthens the serialized
document. -/
theorem tagFrom_wrapIdx_length :
    ∀ (S : List (List Char)) (k m : ℤ), S ≠ [] →
      (tagFrom k S).length < (tagFrom k (wrapIdx m S)).length := by
  intro S
  induction S with
  | nil => intro k m h; exact absurd rfl h
  | cons s rest ih =>
    intro k m _
    cases rest with
    | nil =>
      rw [wrapIdx, wrapIdx, tagFrom, tagFrom, wrapL_length, wrapL_length, wrapL_length]
      have h1 := openTagL_length_pos m
      have h2 := closeTagL_length_pos m
      omega
    | cons s' rest' =>
      rw [wrapIdx, wrapIdx, tagFrom]
      rw [show tagFrom k (wrapL m s :: (wrapL (m + 1) s' :: wrapIdx (m + 1 + 1) rest')) =
          wrapL k (wrapL m s) ++ ' ' :: tagFrom (k + 1) (wrapL (m + 1) s' :: wrapIdx (m + 1 + 1) rest')
        from rfl]
      have hih := ih (k + 1) (m + 1) (by simp)
      rw [wrapIdx] at hih
      simp only [List.length_append, List.length_cons, wrapL_length]
      have h1 := openTagL_length_pos m
      have h2 := closeTagL_length_pos m
      omega

/-! ## A concrete segmenter for concrete instances

The NLTK tokenizer is external to the repository; concrete instances
use this simple stand-in segmenter that splits on `|`. -/

/-- Split a character list at every `|` (a concrete deterministic
segmenter used for closed instances). -/
def splitBar : List Char → List (List Char)
  | [] => [[]]
  | c :: cs =>
    if c = '|' then [] :: splitBar cs
    else
      match splitBar cs with
      | [] => [[c]]
      | g :: gs => (c :: g) :: gs

/-- A sentence without `<` contains no marker. -/
theorem markerFree_of_no_lt {s : List Char} (h : '<' ∉ s) : MarkerFree s := by
  intro z
  constructor
  · intro ⟨l, r, hlr⟩
    apply h
    rw [← hlr]
    simp [openTagL]
  · intro ⟨l, r, hlr⟩
    apply h
    rw [← hlr]
    simp [closeTagL]

/-- Sentence lists without `<` are clean. -/
theorem cleanS_of_no_lt {S : List (List Char)} (h : ∀ s ∈ S, '<' ∉ s) : CleanS S :=
  fun s hs => markerFree_of_no_lt (h s hs)

/-! ## The aggregation pipeline (`ContentFlagger`) -/

/-- One raw flag as `_group_consecutive_flags` reads it: the carried
fields plus the span reference from the classifier. -/
structure RawFlag where
  issue_type : String
  severity_level : String
  confidence : ℚ
  rationale : String
  tag_numbers : Span
  deriving DecidableEq

/-- One grouped flag (run-derived evidence entry) as built by
`_group_consecutive_flags`. -/
structure GroupedFlag where
  issue_type : String
  severity_level : String
  confidence : ℚ
  text_evidence : List Char
  rationale : String
  tag_numbers : List ℤ
  deriving DecidableEq

/-- Body of the per-flag loop of
`ContentFlagger._group_consecutive_flags`: normalize the span, group
into consecutive runs, resolve each run to a paragraph, and keep only
runs whose paragraph is non-empty (Python truthiness of `paragraph`). -/
def groupOneFlag (tagged : List Char) (f : RawFlag) : List GroupedFlag :=
  if normalizeSpan f.tag_numbers = [] then []
  else
    (group_consecutive_numbers (normalizeSpan f.tag_numbers)).filterMap fun g =>
      if extract_sentences_for_tags tagged g = [] then none
      else some ⟨f.issue_type, f.severity_level, f.confidence,
        extract_sentences_for_tags tagged g, f.rationale, g⟩

/-- Translation of `ContentFlagger._group_consecutive_flags`. -/
def groupConsecutiveFlags (flagsRaw : List RawFlag) (tagged : List Char) : List GroupedFlag :=
  (flagsRaw.map (groupOneFlag tagged)).flatten

/-- The sort key of `flag_story`:
`f.get("tag_numbers", [float("inf")])[0]` (every grouped flag carries a
non-empty run, so this is the run's first id). -/
def flagSortKey (f : GroupedFlag) : ℤ := f.tag_numbers.headI

/-- The comparison `flag_story` sorts by. -/
def flagLE (a b : GroupedFlag) : Prop := flagSortKey a ≤ flagSortKey b

instance : DecidableRel flagLE := fun a b =>
  inferInstanceAs (Decidable (flagSortKey a ≤ flagSortKey b))

instance : IsTotal GroupedFlag flagLE :=
  ⟨fun a b => le_total (flagSortKey a) (flagSortKey b)⟩

instance : IsTrans GroupedFlag flagLE := ⟨fun _ _ _ => le_trans⟩

/-- The merge step of `ContentFlagger.flag_story`: concatenate the
per-category raw flag lists in completion order, group them, then
stable-sort by the run's first id (Python `list.sort` is stable;
insertion sort is the stable sorting algorithm modelling it). -/
def mergeFlags (perCategory : List (List RawFlag)) (tagged : List Char) : List GroupedFlag :=
  List.insertionSort flagLE (groupConsecutiveFlags perCategory.flatten tagged)

/-- Insertion keeps the elements with any fixed key, in order: the
prefix that insertion skips consists of strictly smaller keys. -/
theorem filter_orderedInsert (kv : ℤ) (a : GroupedFlag) (l : List GroupedFlag) :
    (List.orderedInsert flagLE a l).filter (fun e => decide (flagSortKey e = kv)) =
      if flagSortKey a = kv then
        a :: l.filter (fun e => decide (flagSortKey e = kv))
      else l.filter (fun e => decide (flagSortKey e = kv)) := by
  rw [List.orderedInsert_eq_take_drop, List.filter_append]
  have hl : l.filter (fun e => decide (flagSortKey e = kv)) =
      (l.takeWhile fun b => decide ¬flagLE a b).filter (fun e => decide (flagSortKey e = kv)) ++
      (l.dropWhile fun b => decide ¬flagLE a b).filter (fun e => decide (flagSortKey e = kv)) := by
    rw [← List.filter_append, List.takeWhile_append_dropWhile]
  by_cases ha : flagSortKey a = kv
  · rw [if_pos ha]
    have htake : (l.takeWhile fun b => decide ¬flagLE a b).filter
        (fun e => decide (flagSortKey e = kv)) = [] := by
      rw [List.filter_eq_nil_iff]
      intro b hb
      have hprop := List.mem_takeWhile_imp hb
      simp only [decide_eq_true_eq] at hprop ⊢
      unfold flagLE at hprop
      omega
    rw [htake, List.filter_cons_of_pos (by simpa using ha), hl, htake]
    simp
  · rw [if_neg ha, List.filter_cons_of_neg (by simpa using ha), hl]

/-- Stability of the modelled sort: the sub-sequence of entries sharing
one key value is exactly the input's sub-sequence with that key. -/
theorem filter_insertionSort (kv : ℤ) (l : List GroupedFlag) :
    (List.insertionSort flagLE l).filter (fun e => decide (flagSortKey e = kv)) =
      l.filter (fun e => decide (flagSortKey e = kv)) := by
  induction l with
  | nil => rfl
  | cons a l ih =>
    rw [List.insertionSort, filter_orderedInsert]
    by_cases ha : flagSortKey a = kv
    · rw [if_pos ha, ih, List.filter_cons_of_pos (by simpa using ha)]
    · rw [if_neg ha, ih, List.filter_cons_of_neg (by simpa using ha)]

/-! ## The overlay renderer (`HighlightingHelper`) -/

/-- One flag entry as `flag_story` hands it to the renderer (the fields
`generate_flag_html_simple` reads). -/
structure FlagEntry where
  severity : String
  css_class : String
  color : String
  issue_type : String
  deriving DecidableEq

/-- Translation of `HighlightingHelper.SEVERITY_COLORS`. -/
def SEVERITY_COLORS : List (String × String) :=
  [("Critical", "#d32f2f"), ("High", "#ff6b6b"), ("Medium", "#ffa726"), ("Low", "#fff59d")]

/-- Translation of `HighlightingHelper.SEVERITY_CSS_CLASSES`. -/
def SEVERITY_CSS_CLASSES : List (String × String) :=
  [("Critical", "flag-critical"), ("High", "flag-high"),
   ("Medium", "flag-medium"), ("Low", "flag-low")]

/-- The span markup emitted for one highlighted sentence (the f-string
in `generate_flag_html_simple`). -/
def spanHtml (css_class color title text : String) : String :=
  "<span class=\"" ++ css_class ++
    "\" style=\"background-color: " ++ color ++
    "; padding: 2px 4px; border-radius: 3px;\" title=\"" ++ title ++
    "\">" ++ text ++ "</span>"

/-- The per-flag description used in the multi-flag title. -/
def flagDescription (f : FlagEntry) : String := f.severity ++ ": " ++ f.issue_type

/-- Translation of `HighlightingHelper.generate_flag_html_simple`.  The
coverage index `sentence_flags` is the Python dict as a total function
(a tag absent from the dict maps to `[]`; `flag_story` never stores an
empty list). -/
def generate_flag_html_simple (sentence_mapping : List (ℕ × String))
    (sentence_flags : ℕ → List FlagEntry) : String :=
  String.intercalate " " (sentence_mapping.map fun p =>
    match sentence_flags p.1 with
    | [] => p.2
    | [f] => spanHtml f.css_class f.color (flagDescription f) p.2
    | fs => spanHtml "flag-multiple" "#9e9e9e"
        ("Multiple issues - " ++ String.intercalate "; " (fs.map flagDescription)) p.2)

/-- The renderer the spec describes, sentence by sentence: plain when
uncovered, the entry's own style when covered once, the fixed neutral
multiple style when covered twice or more. -/
def renderSentenceSpec (sentence_flags : ℕ → List FlagEntry) (p : ℕ × String) : String :=
  match sentence_flags p.1 with
  | [] => p.2
  | [f] => spanHtml f.css_class f.color (f.severity ++ ": " ++ f.issue_type) p.2
  | fs => spanHtml "flag-multiple" "#9e9e9e"
      ("Multiple issues - " ++ String.intercalate "; "
        (fs.map fun f => f.severity ++ ": " ++ f.issue_type)) p.2

/-! ## Concrete data for the merge-ordering instance -/

/-- A five-sentence tagged document. -/
def demoTagged : List Char := tagFrom 1 [['A'], ['B'], ['C'], ['D'], ['E']]

/-- A candidate whose run starts at id 5. -/
def demoFlagA : RawFlag := ⟨"overlong", "Low", 1 / 2, "slow pacing", Span.one 5⟩

/-- A candidate whose run starts at id 1. -/
def demoFlagB : RawFlag := ⟨"scary", "High", 1 / 2, "frightening", Span.one 1⟩

/-- A candidate whose run starts at id 3. -/
def demoFlagC : RawFlag := ⟨"complex", "Medium", 1 / 2, "hard words", Span.one 3⟩

/-! ## Run structure of the grouping scan -/

theorem gcnGo_chain (l : List ℤ) :
    ∀ last cur, cur.head? = some last → List.Chain' (fun a b => a = b + 1) cur →
      ∀ g ∈ gcnGo last cur l, List.Chain' (fun a b => b = a + 1) g := by
  induction l with
  | nil =>
    intro last cur _ hchain g hg
    simp only [gcnGo, List.mem_singleton] at hg
    subst hg
    rw [List.chain'_reverse]
    exact hchain
  | cons m rest ih =>
    intro last cur hhead hchain g hg
    by_cases h : m = last + 1
    · refine ih m (m :: cur) rfl ?_ g (by simpa [gcnGo, h] using hg)
      rw [List.chain'_cons']
      exact ⟨fun y hy => by rw [hhead] at hy; simp at hy; omega, hchain⟩
    · simp only [gcnGo, if_neg h, List.mem_cons] at hg
      rcases hg with hg | hg
      · subst hg
        rw [List.chain'_reverse]
        exact hchain
      · exact ih m [m] rfl (List.chain'_singleton m) g hg

theorem gcnGo_first_head (l : List ℤ) :
    ∀ last cur, cur ≠ [] →
      ∃ g gs, gcnGo last cur l = g :: gs ∧ g.head? = cur.reverse.head? := by
  induction l with
  | nil =>
    intro last cur _
    exact ⟨cur.reverse, [], rfl, rfl⟩
  | cons m rest ih =>
    intro last cur hcur
    by_cases h : m = last + 1
    · obtain ⟨g, gs, hgs, hhead⟩ := ih m (m :: cur) (by simp)
      refine ⟨g, gs, by simpa [gcnGo, h] using hgs, ?_⟩
      rw [hhead, List.reverse_cons]
      have hne : cur.reverse ≠ [] := by simpa using hcur
      obtain ⟨x, xs, hxs⟩ := List.exists_cons_of_ne_nil hne
      rw [hxs]
      rfl
    · exact ⟨cur.reverse, gcnGo m [m] rest, by simp [gcnGo, h], rfl⟩

theorem gcnGo_boundary (l : List ℤ) :
    ∀ last cur, cur.head? = some last →
      List.Chain' (fun g h => ∀ x y, g.getLast? = some x → h.head? = some y → y ≠ x + 1)
        (gcnGo last cur l) := by
  induction l with
  | nil =>
    intro last cur _
    simp [gcnGo]
  | cons m rest ih =>
    intro last cur hhead
    by_cases h : m = last + 1
    · simpa [gcnGo, h] using ih m (m :: cur) rfl
    · simp only [gcnGo, if_neg h]
      obtain ⟨g, gs, hgs, hg⟩ := gcnGo_first_head rest m [m] (by simp)
      rw [hgs, List.chain'_cons']
      refine ⟨?_, by rw [← hgs]; exact ih m [m] rfl⟩
      intro b hb x y hx hy
      have hb' : g = b := by simpa using hb
      subst hb'
      rw [List.getLast?_reverse, hhead, Option.some.injEq] at hx
      rw [hg] at hy
      simp only [List.reverse_cons, List.reverse_nil, List.nil_append, List.head?_cons,
        Option.some.injEq] at hy
      omega

/-- A permutation of a three-element list of distinct elements is one
of the six explicit orders. -/
theorem perm_three {α : Type _} [DecidableEq α] {a b c : α} {L : List α}
    (hab : a ≠ b) (hac : a ≠ c) (hbc : b ≠ c) (h : L.Perm [a, b, c]) :
    L = [a, b, c] ∨ L = [a, c, b] ∨ L = [b, a, c] ∨
      L = [b, c, a] ∨ L = [c, a, b] ∨ L = [c, b, a] := by
  have hlen : L.length = 3 := by rw [h.length_eq]; rfl
  match L, hlen with
  | [x, y, z], _ =>
    have hx : x ∈ [a, b, c] := h.subset (by simp)
    have hy : y ∈ [a, b, c] := h.subset (by simp)
    have hz : z ∈ [a, b, c] := h.subset (by simp)
    have hnd : List.Nodup [x, y, z] := h.nodup_iff.2 (by simp [hab, hac, hbc])
    simp only [List.mem_cons, List.mem_singleton, List.not_mem_nil, or_false] at hx hy hz
    simp only [List.nodup_cons, List.mem_cons, List.mem_singleton, List.not_mem_nil,
      or_false, not_or, List.nodup_nil, and_true] at hnd
    rcases hx with rfl | rfl | rfl <;> rcases hy with rfl | rfl | rfl <;>
      rcases hz with rfl | rfl | rfl <;> simp_all

/-! ## The claims -/

/-- C1: for every document, the per-category candidate lists (in
whatever completion order) are concatenated, grouped into run-derived
entries, and stable-sorted by the first id of each entry's run; the
result is ordered by `run[0]` ascending, the sort is stable (entries
sharing a first id keep their pre-sort relative order), and on three
categories whose runs start at 5, 1 and 3, any arrival order merges to
1, 3, 5. -/
theorem C1_merge_ordering :
    (∀ (perCategory : List (List RawFlag)) (tagged : List Char),
      (mergeFlags perCategory tagged).Sorted flagLE) ∧
    (∀ (perCategory : List (List RawFlag)) (tagged : List Char) (kv : ℤ),
      (mergeFlags perCategory tagged).filter (fun e => decide (flagSortKey e = kv)) =
        (groupConsecutiveFlags perCategory.flatten tagged).filter
          (fun e => decide (flagSortKey e = kv))) ∧
    (∀ L : List (List RawFlag), L.Perm [[demoFlagA], [demoFlagB], [demoFlagC]] →
      (mergeFlags L demoTagged).map flagSortKey = [1, 3, 5]) := by
  refine ⟨?_, ?_, ?_⟩
  · intro perCategory tagged
    exact List.sorted_insertionSort flagLE _
  · intro perCategory tagged kv
    exact filter_insertionSort kv _
  · intro L hperm
    have := perm_three (by decide) (by decide) (by decide) hperm
    rcases this with rfl | rfl | rfl | rfl | rfl | rfl <;> decide

/-- C2: the renderer emits, for each sentence in document order, the
plain text when uncovered, the single covering entry's own style and
`severity: label` title when covered once, and the fixed neutral gray
`flag-multiple` style with all covering descriptions joined by `"; "`
in coverage order when covered more than once; fragments are joined by
single spaces, and the neutral style differs from every per-severity
color and class. -/
theorem C2_renderer :
    (∀ (sentence_mapping : List (ℕ × String)) (sentence_flags : ℕ → List FlagEntry),
      generate_flag_html_simple sentence_mapping sentence_flags =
        String.intercalate " " (sentence_mapping.map (renderSentenceSpec sentence_flags))) ∧
    (∀ p ∈ SEVERITY_COLORS, p.2 ≠ "#9e9e9e") ∧
    (∀ p ∈ SEVERITY_CSS_CLASSES, p.2 ≠ "flag-multiple") := by
  refine ⟨?_, by decide, by decide⟩
  intro m f
  unfold generate_flag_html_simple
  congr 1

/-- C3: on every sorted list of integers the grouping scan partitions
the input into maximal runs of consecutive integers (concatenation
restores the input, each group is a non-empty `+1`-chain, and adjacent
groups never continue each other), with the four concrete grouping laws
of the spec. -/
theorem C3_grouping :
    (∀ l : List ℤ, l.Sorted (· ≤ ·) →
      (group_consecutive_numbers l).flatten = l ∧
      (∀ g ∈ group_consecutive_numbers l, g ≠ [] ∧ List.Chain' (fun a b => b = a + 1) g) ∧
      List.Chain' (fun g h => ∀ x y, g.getLast? = some x → h.head? = some y → y ≠ x + 1)
        (group_consecutive_numbers l)) ∧
    group_consecutive_numbers [1, 2, 3, 5, 6, 10] = [[1, 2, 3], [5, 6], [10]] ∧
    group_consecutive_numbers [1, 2, 3, 4, 5] = [[1, 2, 3, 4, 5]] ∧
    group_consecutive_numbers [1, 3, 5, 7] = [[1], [3], [5], [7]] ∧
    group_consecutive_numbers [] = [] := by
  refine ⟨?_, by decide, by decide, by decide, rfl⟩
  intro l _
  refine ⟨group_consecutive_flatten l, ?_, ?_⟩
  · intro g hg
    refine ⟨group_consecutive_ne_nil l g hg, ?_⟩
    cases l with
    | nil => simp [group_consecutive_numbers] at hg
    | cons n rest =>
      exact gcnGo_chain rest n [n] rfl (List.chain'_singleton n) g hg
  · cases l with
    | nil => simp [group_consecutive_numbers]
    | cons n rest =>
      exact gcnGo_boundary rest n [n] rfl

/-- C3 witness: the structural part applied at a concrete sorted
list. -/
theorem C3_grouping_witness :
    (group_consecutive_numbers [2, 4, 5]).flatten = [2, 4, 5] ∧
    (∀ g ∈ group_consecutive_numbers [2, 4, 5],
      g ≠ [] ∧ List.Chain' (fun a b => b = a + 1) g) ∧
    List.Chain' (fun g h => ∀ x y, g.getLast? = some x → h.head? = some y → y ≠ x + 1)
      (group_consecutive_numbers [2, 4, 5]) :=
  C3_grouping.1 [2, 4, 5] (by decide)

/-- C10: grouping never drops, duplicates or reorders ids — the
concatenation of the returned groups is exactly the input, sorted or
not, and every group is non-empty. -/
theorem C10_partition_exact :
    ∀ l : List ℤ, (group_consecutive_numbers l).flatten = l ∧
      ∀ g ∈ group_consecutive_numbers l, g ≠ [] :=
  fun l => ⟨group_consecutive_flatten l, group_consecutive_ne_nil l⟩

/-- C6 counterexample: a list whose elements are not integers is not
mapped to `[]` (a singleton string list is returned unchanged), and a
mixed-type list even raises `TypeError` inside `sorted` — against the
claim that any other shape yields `[]` and never an error. -/
theorem C6_counterexample :
    normalize_tag_numbers (PyVal.list [PyVal.str "a"]) = Except.ok [PyVal.str "a"] ∧
    normalize_tag_numbers (PyVal.list [PyVal.str "a"]) ≠ Except.ok [] ∧
    normalize_tag_numbers (PyVal.list [PyVal.int 1, PyVal.str "a"]) = Except.error () := by
  refine ⟨rfl, ?_, rfl⟩
  intro h
  rw [show normalize_tag_numbers (PyVal.list [PyVal.str "a"]) =
    Except.ok [PyVal.str "a"] from rfl] at h
  simp at h

/-- C6 (amended): `normalize_tag_numbers` maps a single integer to a
singleton list, a list of integers to that list sorted ascending
(never raising), and a non-int non-list value to `[]`; a list whose
elements are not integers is, however, passed to `sorted` and returned
rather than replaced by `[]`. -/
theorem C6_normalize_amended :
    (∀ n : ℤ, normalize_tag_numbers (.int n) = .ok [.int n]) ∧
    (∀ l : List ℤ, normalize_tag_numbers (.list (l.map .int)) =
      .ok ((l.insertionSort (· ≤ ·)).map .int)) ∧
    (∀ l : List ℤ, (l.insertionSort (· ≤ ·)).Sorted (· ≤ ·)) ∧
    normalize_tag_numbers (.str "invalid") = .ok [] ∧
    normalize_tag_numbers .other = .ok [] ∧
    normalize_tag_numbers (.int 5) = .ok [.int 5] ∧
    normalize_tag_numbers (.list [.int 3, .int 1, .int 2]) =
      .ok [.int 1, .int 2, .int 3] ∧
    normalize_tag_numbers (.list []) = .ok [] := by
  refine ⟨fun n => rfl, ?_, fun l => List.sorted_insertionSort _ l, rfl, rfl, rfl, rfl, rfl⟩
  intro l
  show pySorted (l.map .int) = .ok ((l.insertionSort (· ≤ ·)).map .int)
  unfold pySorted
  by_cases hlen : (l.map PyVal.int).length ≤ 1
  · rw [if_pos hlen]
    rw [List.length_map] at hlen
    match l, hlen with
    | [], _ => rfl
    | [n], _ => rfl
  · rw [if_neg hlen]
    have hints : PyVal.asInts (l.map .int) = some l := by
      clear hlen
      induction l with
      | nil => rfl
      | cons n rest ih => rw [List.map_cons, PyVal.asInts, ih]; rfl
    rw [hints]

/-- C4 counterexample: a non-empty text with stable segmentation on
which `tag(tag(t)) ≠ tag(t)` — `tag_sentences` has no marker detection
and re-wraps every already-tagged sentence. -/
theorem C4_counterexample :
    (['H', 'i', '.'] : List Char) ≠ [] ∧
    StableSegmentation splitBar ['H', 'i', '.'] ∧
    tag_sentences splitBar (tag_sentences splitBar ['H', 'i', '.']) ≠
      tag_sentences splitBar ['H', 'i', '.'] := by
  refine ⟨by decide, ?_, by decide⟩
  unfold StableSegmentation
  decide

/-- C4 (amended): tagging is never idempotent on non-empty input with
stable segmentation: re-tagging wraps every already-tagged sentence in
a second marker layer, so `tag(tag(t))` is strictly longer than, hence
different from, `tag(t)`.  The no-re-tagging behaviour the spec
describes lives in `get_sentence_mapping` (see C9), not in
`tag_sentences`. -/
theorem C4_tag_not_idempotent (tok : List Char → List (List Char)) (t : List Char)
    (hne : split_into_sentences tok t ≠ []) (hst : StableSegmentation tok t) :
    tag_sentences tok (tag_sentences tok t) ≠ tag_sentences tok t := by
  intro h
  have h2 : tag_sentences tok (tag_sentences tok t) =
      tagFrom 1 (wrapIdx 1 (split_into_sentences tok t)) := by
    show tagFrom 1 (split_into_sentences tok (tag_sentences tok t)) = _
    rw [show split_into_sentences tok (tag_sentences tok t) =
      wrapIdx 1 (split_into_sentences tok t) from hst]
  have hlt := tagFrom_wrapIdx_length (split_into_sentences tok t) 1 1 hne
  rw [h2] at h
  have hlen := congrArg List.length h
  unfold tag_sentences at hlen
  omega

/-- C4 witness: the amended theorem applied at the concrete stable
instance. -/
theorem C4_tag_not_idempotent_witness :
    split_into_sentences splitBar ['H', 'i', '.'] ≠ [] ∧
    tag_sentences splitBar (tag_sentences splitBar ['H', 'i', '.']) ≠
      tag_sentences splitBar ['H', 'i', '.'] :=
  ⟨by decide, C4_tag_not_idempotent splitBar ['H', 'i', '.'] (by decide)
    (by unfold StableSegmentation; decide)⟩

/-- C5 counterexample: a sentence containing a newline (and no marker)
is not recovered — the extraction regex's `.` does not match `\n`, so
`extractOne(tag(t), 1)` is `""` instead of the first sentence. -/
theorem C5_counterexample :
    CleanS (split_into_sentences splitBar ['a', '\n', 'b', '|', 'c']) ∧
    split_into_sentences splitBar ['a', '\n', 'b', '|', 'c'] = [['a', '\n', 'b'], ['c']] ∧
    extract_sentence_by_tag (tag_sentences splitBar ['a', '\n', 'b', '|', 'c']) 1 = [] ∧
    (['a', '\n', 'b'] : List Char) ≠ [] :=
  ⟨cleanS_of_no_lt (by decide), by decide, by decide, by decide⟩

/-- C5 (amended): round trip of tagging and extraction, with the
newline-free precondition the regex forces: when no sentence of
`split(t)` contains a marker substring or a newline, `extractOne`
applied to the tagged document and id `i` (for `1 ≤ i ≤ n`) returns
exactly the `i`-th sentence of `split(t)`. -/
theorem C5_round_trip (tok : List Char → List (List Char)) (t : List Char) (i : ℕ)
    (hC : CleanS (split_into_sentences tok t))
    (hN : NlFreeS (split_into_sentences tok t))
    (h1 : 1 ≤ i) (h2 : i ≤ (split_into_sentences tok t).length) :
    extract_sentence_by_tag (tag_sentences tok t) (i : ℤ) =
      (split_into_sentences tok t).get ⟨i - 1, by omega⟩ := by
  have hj : i - 1 < (split_into_sentences tok t).length := by omega
  have hsearch := reSearch_tagFrom (split_into_sentences tok t) 1 (i - 1) le_rfl hC hN hj
  have hcast : (1 : ℤ) + ((i - 1 : ℕ) : ℤ) = (i : ℤ) := by omega
  rw [hcast] at hsearch
  unfold extract_sentence_by_tag tag_sentences
  rw [hsearch]
  rfl

/-- C5 witness: the round trip at a concrete two-sentence document. -/
theorem C5_round_trip_witness :
    extract_sentence_by_tag (tag_sentences splitBar ['H', 'i', '.', '|', 'B', 'y', 'e']) 2 =
      ['B', 'y', 'e'] := by
  have h := C5_round_trip splitBar ['H', 'i', '.', '|', 'B', 'y', 'e'] 2
    (cleanS_of_no_lt (by decide)) (by unfold NlFreeS; decide) (by decide) (by decide)
  rw [show (2 : ℤ) = ((2 : ℕ) : ℤ) from rfl, h]
  decide

/-- C7: evidence resolution joins the successfully extracted sentences
with single spaces, silently skipping ids that fail to resolve (the
result only depends on the resolving ids); a run in which every id
fails contributes the empty paragraph; and every entry emitted by
`_group_consecutive_flags` carries non-empty evidence text. -/
theorem C7_evidence :
    (∀ (tagged : List Char) (nums : List ℤ),
      extract_sentences_for_tags tagged nums =
        extract_sentences_for_tags tagged
          (nums.filter fun z => extract_sentence_by_tag tagged z ≠ [])) ∧
    (∀ (tagged : List Char) (g : List ℤ),
      (∀ z ∈ g, extract_sentence_by_tag tagged z = []) →
      extract_sentences_for_tags tagged g = []) ∧
    (∀ (tagged : List Char) (flagsRaw : List RawFlag) (e : GroupedFlag),
      e ∈ groupConsecutiveFlags flagsRaw tagged → e.text_evidence ≠ []) := by
  refine ⟨?_, ?_, ?_⟩
  · intro tagged nums
    unfold extract_sentences_for_tags
    congr 1
    induction nums with
    | nil => rfl
    | cons z rest ih =>
      by_cases hz : extract_sentence_by_tag tagged z = []
      · rw [List.map_cons, List.filter_cons_of_neg (by simp [hz]),
          List.filter_cons_of_neg (by simp [hz]), ih]
      · rw [List.map_cons, List.filter_cons_of_pos (by simp [hz]),
          List.filter_cons_of_pos
            (p := fun z => decide (extract_sentence_by_tag tagged z ≠ [])) (by simp [hz]),
          List.map_cons, List.filter_cons_of_pos (by simp [hz]), ih]
  · intro tagged g hall
    unfold extract_sentences_for_tags
    have hempty : (g.map (extract_sentence_by_tag tagged)).filter (· ≠ []) = [] := by
      rw [List.filter_eq_nil_iff]
      intro x hx
      simp only [List.mem_map] at hx
      obtain ⟨z, hz, rfl⟩ := hx
      simp [hall z hz]
    rw [hempty]
    rfl
  · intro tagged flagsRaw e he
    unfold groupConsecutiveFlags at he
    simp only [List.mem_flatten, List.mem_map] at he
    obtain ⟨L, ⟨f, _hf, rfl⟩, heL⟩ := he
    unfold groupOneFlag at heL
    by_cases hn : normalizeSpan f.tag_numbers = []
    · rw [if_pos hn] at heL
      simp at heL
    · rw [if_neg hn] at heL
      simp only [List.mem_filterMap] at heL
      obtain ⟨g, _hg, hsome⟩ := heL
      by_cases hp : extract_sentences_for_tags tagged g = []
      · rw [if_pos hp] at hsome
        simp at hsome
      · rw [if_neg hp] at hsome
        simp only [Option.some.injEq] at hsome
        rw [← hsome]
        exact hp

/-- C7 witness: a run every id of which fails to resolve yields the
empty paragraph (and so no entry). -/
theorem C7_evidence_witness :
    extract_sentences_for_tags (tag_sentences splitBar ['H', 'i', '.']) [7, 9] = [] :=
  C7_evidence.2.1 (tag_sentences splitBar ['H', 'i', '.']) [7, 9] (by decide)

/-- C8: for a clean document, looking up any id outside `1..n` in the
tagged text finds no marker and returns the empty (not-found) string —
the lookup total function never raises, and such an id contributes
nothing to evidence. -/
theorem C8_out_of_range (tok : List Char → List (List Char)) (t : List Char) (z : ℤ)
    (hC : CleanS (split_into_sentences tok t))
    (hz : z < 1 ∨ ((split_into_sentences tok t).length : ℤ) < z) :
    extract_sentence_by_tag (tag_sentences tok t) z = [] := by
  have hnone := reSearch_tagFrom_none (split_into_sentences tok t) 1 z le_rfl hC
    (fun j hj => by
      have hcast : (j : ℤ) < ((split_into_sentences tok t).length : ℤ) := by
        exact_mod_cast hj
      omega)
  unfold extract_sentence_by_tag tag_sentences
  rw [hnone]
  rfl

/-- C8 witness: id 99 in a one-sentence document resolves to the empty
string. -/
theorem C8_out_of_range_witness :
    extract_sentence_by_tag (tag_sentences splitBar ['H', 'i', '.']) 99 = [] :=
  C8_out_of_range splitBar ['H', 'i', '.'] 99 (cleanS_of_no_lt (by decide))
    (Or.inr (by decide))

/-- C9 counterexample: a document whose first sentence contains a
newline: auto-detect-and-tag still happens, but the mapping scan skips
the first pair, so the recovered pairs are not `(1, s1), (2, s2)`. -/
theorem C9_counterexample :
    hasTagMarker ['a', '\n', 'b', '|', 'c'] = false ∧
    CleanS (split_into_sentences splitBar ['a', '\n', 'b', '|', 'c']) ∧
    split_into_sentences splitBar ['a', '\n', 'b', '|', 'c'] = [['a', '\n', 'b'], ['c']] ∧
    get_sentence_mapping splitBar ['a', '\n', 'b', '|', 'c'] = [(2, ['c'])] ∧
    get_sentence_mapping splitBar ['a', '\n', 'b', '|', 'c'] ≠
      [(1, ['a', '\n', 'b']), (2, ['c'])] :=
  ⟨by decide, cleanS_of_no_lt (by decide), by decide, by decide, by decide⟩

/-- C9 (amended): mapping auto-detects tagging — an unmarked text is
tagged first, so its mapping equals the mapping of its tagged form, and
(when the sentences are marker-free and newline-free) yields exactly
the pairs `(1, s1) … (n, sn)`; an already-tagged document is mapped
without re-tagging and recovers exactly the serialized pairs. -/
theorem C9_mapping (tok : List Char → List (List Char)) (t : List Char)
    (hnm : hasTagMarker t = false) :
    (get_sentence_mapping tok t = get_sentence_mapping tok (tag_sentences tok t)) ∧
    (CleanS (split_into_sentences tok t) → NlFreeS (split_into_sentences tok t) →
      get_sentence_mapping tok t = enumFromN 1 (split_into_sentences tok t)) ∧
    (∀ (tok' : List Char → List (List Char)) (S : List (List Char)),
      CleanS S → NlFreeS S →
      get_sentence_mapping tok' (tagFrom 1 S) = enumFromN 1 S) := by
  have hL : get_sentence_mapping tok t = scanMappings (tag_sentences tok t) := by
    unfold get_sentence_mapping
    simp [hnm]
  have htagged : ∀ (tok' : List Char → List (List Char)) (S : List (List Char)),
      CleanS S → NlFreeS S →
      get_sentence_mapping tok' (tagFrom 1 S) = enumFromN 1 S := by
    intro tok' S hC hN
    cases S with
    | nil =>
      rfl
    | cons s rest =>
      unfold get_sentence_mapping
      rw [hasTagMarker_tagFrom le_rfl s rest]
      simp only [if_true]
      rw [scanMappings_tagFrom (s :: rest) 1 le_rfl hC hN]
      rfl
  refine ⟨?_, ?_, htagged⟩
  · rw [hL]
    unfold tag_sentences
    cases hS : split_into_sentences tok t with
    | nil =>
      rw [tagFrom]
      rfl
    | cons s rest =>
      unfold get_sentence_mapping
      rw [hasTagMarker_tagFrom le_rfl s rest]
      simp only [if_true]
  · intro hC hN
    rw [hL]
    unfold tag_sentences
    rw [scanMappings_tagFrom (split_into_sentences tok t) 1 le_rfl hC hN]
    rfl

/-- C9 witness: the amended mapping applied at a concrete unmarked
two-sentence document. -/
theorem C9_mapping_witness :
    get_sentence_mapping splitBar ['H', 'i', '.', '|', 'B', 'y', 'e'] =
      [(1, ['H', 'i', '.']), (2, ['B', 'y', 'e'])] := by
  have h := (C9_mapping splitBar ['H', 'i', '.', '|', 'B', 'y', 'e'] (by decide)).2.1
    (cleanS_of_no_lt (by decide)) (by unfold NlFreeS; decide)
  rw [h]
  decide

end StoryCurator
